import Mathlib

/-!
Shallow embedding of the `campculator` front end (src/lexer.rs and
src/parser.rs) and verification of its specification claims.

The source text is modelled as a `List Char`; the lexer's cursor is a
natural-number index into that list, exactly as `position` indexes the
`Vec<char>` in the Rust code.  Loops of the source (`loop { ... }` in
`make_identifier`, `make_number`, the whitespace recursion of
`make_token`, and the parser's `parse_add_sub` / `parse_mul_div` loops)
are written in fuel-passing style so that every definition is a
structurally recursive computable function.  Each wrapper passes
`text.length + 1 - pos` fuel; every iteration advances `pos` by exactly
one while consuming one unit of fuel, so fuel can only run out once
`pos > text.length`, where the out-of-fuel branch returns the same value
as the end-of-input branch.  The fuel-passing functions therefore agree
with the unbounded loops of the source on every input.
-/

/-- Token kinds of the lexer (src/lexer.rs, `TokenVariant`). -/
inductive TokenVariant : Type
  | Add
  | Sub
  | Mul
  | Div
  | Pow
  | Equal
  | Int
  | Arrow
  | Float
  | Id
  | RParen
  | LParen
  | Fn
  | Invalid
  deriving DecidableEq, Repr

/-- A lexed token (src/lexer.rs, `Token`): inclusive character span plus kind. -/
structure Token where
  «from» : Nat
  «to» : Nat
  variant : TokenVariant
  deriving DecidableEq, Repr

/-- Rust's `'0'..='9'` character-range test, stated on code points (48 to 57). -/
def isAsciiDigit (c : Char) : Bool :=
  decide (48 ≤ c.toNat) && decide (c.toNat ≤ 57)

/-- Rust's `'A'..='Z' | 'a'..='z' | '_'` pattern (start of an identifier in
`make_token`), stated on code points (65 to 90, 97 to 122, underscore). -/
def isIdentStart (c : Char) : Bool :=
  (decide (65 ≤ c.toNat) && decide (c.toNat ≤ 90)) ||
    (decide (97 ≤ c.toNat) && decide (c.toNat ≤ 122)) || c == '_'

/-- Rust's `'A'..='Z' | 'a'..='z' | '_' | '0'..='9'` pattern (loop of `make_identifier`). -/
def isIdentChar (c : Char) : Bool :=
  isIdentStart c || isAsciiDigit c

/-- A digit or a decimal point: the characters `make_number` consumes. -/
def isDigitOrDot (c : Char) : Bool :=
  isAsciiDigit c || c == '.'

/-- Rust's `char::is_whitespace`: the Unicode `White_Space` code points. -/
def rustIsWhitespace (c : Char) : Bool :=
  let n := c.toNat
  (decide (9 ≤ n) && decide (n ≤ 13)) || n == 32 || n == 133 || n == 160 || n == 5760 ||
    (decide (8192 ≤ n) && decide (n ≤ 8202)) || n == 8232 || n == 8233 || n == 8239 ||
    n == 8287 || n == 12288

/-- The half-open slice `text[a..b]` of a character buffer. -/
def charsCO (text : List Char) (a b : Nat) : List Char :=
  (text.drop a).take (b - a)

/-- The inclusive slice `text[a..=b]` of a character buffer (Rust `text[a..=b]`). -/
def charsCC (text : List Char) (a b : Nat) : List Char :=
  charsCO text a (b + 1)

namespace Lexer

/-- Loop of `Lexer::make_identifier` (src/lexer.rs): consume identifier
characters; on the first non-matching character (or end of input) build the
token, classifying the consumed slice `text[start..=last]` as `Fn` when it is
exactly `fn`, else `Id`.  `last` is the source's local `to`; `pos` is the
cursor; fuel as described in the module comment. -/
def make_identifier_go (text : List Char) : Nat → Nat → Nat → Nat → Token × Nat
  | 0, start, last, pos =>
    ({ «from» := start, «to» := last,
       variant := if charsCC text start last == ['f', 'n'] then TokenVariant.Fn
                  else TokenVariant.Id }, pos)
  | fuel + 1, start, last, pos =>
    match text[pos]? with
    | some c =>
      if isIdentChar c then
        make_identifier_go text fuel start pos (pos + 1)
      else
        ({ «from» := start, «to» := last,
           variant := if charsCC text start last == ['f', 'n'] then TokenVariant.Fn
                      else TokenVariant.Id }, pos)
    | none =>
      ({ «from» := start, «to» := last,
         variant := if charsCC text start last == ['f', 'n'] then TokenVariant.Fn
                    else TokenVariant.Id }, pos)

/-- `Lexer::make_identifier`: enter the loop with `from = to = position`. -/
def make_identifier (text : List Char) (pos : Nat) : Token × Nat :=
  make_identifier_go text (text.length + 1 - pos) pos pos pos

/-- Loop of `Lexer::make_number` (src/lexer.rs): consume digits; a first `.`
turns the token into a `Float`, a second `.` ends it as `Invalid` spanning up
to that `.` without advancing past it.  Any other character (or end of input)
ends the token with the kind accumulated so far. -/
def make_number_go (text : List Char) : Nat → Nat → Nat → Nat → TokenVariant → Token × Nat
  | 0, start, last, pos, variant => ({ «from» := start, «to» := last, variant := variant }, pos)
  | fuel + 1, start, last, pos, variant =>
    match text[pos]? with
    | some c =>
      if c == '.' then
        if variant == TokenVariant.Float then
          ({ «from» := start, «to» := pos, variant := TokenVariant.Invalid }, pos)
        else
          make_number_go text fuel start pos (pos + 1) TokenVariant.Float
      else if isAsciiDigit c then
        make_number_go text fuel start pos (pos + 1) variant
      else
        ({ «from» := start, «to» := last, variant := variant }, pos)
    | none => ({ «from» := start, «to» := last, variant := variant }, pos)

/-- `Lexer::make_number`: enter the loop with `from = to = position`, kind `Int`. -/
def make_number (text : List Char) (pos : Nat) : Token × Nat :=
  make_number_go text (text.length + 1 - pos) pos pos pos TokenVariant.Int

/-- `Lexer::make_single`: a one-character token at the cursor. -/
def make_single (pos : Nat) (variant : TokenVariant) : Token × Nat :=
  ({ «from» := pos, «to» := pos, variant := variant }, pos + 1)

/-- `Lexer::make_double`: a one-character token, widened to a two-character
token of the second kind when the following character matches. -/
def make_double (text : List Char) (pos : Nat) (double_character : Char)
    (single_variant double_variant : TokenVariant) : Token × Nat :=
  match text[pos + 1]? with
  | some v =>
    if v == double_character then
      ({ «from» := pos, «to» := pos + 1, variant := double_variant }, pos + 2)
    else
      ({ «from» := pos, «to» := pos, variant := single_variant }, pos + 1)
  | none => ({ «from» := pos, «to» := pos, variant := single_variant }, pos + 1)

/-- `Lexer::make_token` (src/lexer.rs): dispatch on the current character;
whitespace is skipped by recursing at the next position; end of input yields
`none`. -/
def make_token_go (text : List Char) : Nat → Nat → Option (Token × Nat)
  | 0, _ => none
  | fuel + 1, pos =>
    match text[pos]? with
    | none => none
    | some c =>
      if isAsciiDigit c || c == '.' then some (make_number text pos)
      else if isIdentStart c then some (make_identifier text pos)
      else if c == '+' then some (make_single pos TokenVariant.Add)
      else if c == '-' then some (make_single pos TokenVariant.Sub)
      else if c == '^' then some (make_single pos TokenVariant.Pow)
      else if c == '*' then some (make_single pos TokenVariant.Mul)
      else if c == '=' then some (make_double text pos '>' TokenVariant.Equal TokenVariant.Arrow)
      else if c == '/' then some (make_single pos TokenVariant.Div)
      else if c == '(' then some (make_single pos TokenVariant.LParen)
      else if c == ')' then some (make_single pos TokenVariant.RParen)
      else if rustIsWhitespace c then make_token_go text fuel (pos + 1)
      else some (make_single pos TokenVariant.Invalid)

/-- One `Lexer::next` step: produce the next token and the new cursor, or
`none` at end of input. -/
def make_token (text : List Char) (pos : Nat) : Option (Token × Nat) :=
  make_token_go text (text.length + 1 - pos) pos

/-- Collect the iterator: repeatedly call `make_token` until it yields `none`. -/
def tokenize_go (text : List Char) : Nat → Nat → List Token
  | 0, _ => []
  | fuel + 1, pos =>
    match make_token text pos with
    | none => []
    | some (t, next) => t :: tokenize_go text fuel next

/-- The full token sequence of `Lexer::new(text).collect()`. -/
def tokenize (text : List Char) : List Token :=
  tokenize_go text (text.length + 1) 0

end Lexer

/-- The numeric value of a string of ASCII digits. -/
def digitsToNat (s : List Char) : Nat :=
  s.foldl (fun acc c => acc * 10 + (c.toNat - 48)) 0

/-- `i64::MAX`. -/
def i64MaxNat : Nat := 9223372036854775807

/-- Model of Rust's `str::parse::<i64>` (`i64::from_str`): an optional sign
followed by at least one ASCII digit, rejected when the value overflows the
`i64` range. -/
def parseI64 (s : List Char) : Option Int :=
  match s with
  | [] => none
  | c :: rest =>
    if c == '-' then
      if !rest.isEmpty && rest.all isAsciiDigit then
        if digitsToNat rest ≤ i64MaxNat + 1 then some (-(digitsToNat rest : Int)) else none
      else none
    else
      let digits := if c == '+' then rest else s
      if !digits.isEmpty && digits.all isAsciiDigit then
        if digitsToNat digits ≤ i64MaxNat then some ((digitsToNat digits : Int)) else none
      else none

/-- Lower-case an ASCII capital letter (code points 65 to 90), leave every
other character alone. -/
def asciiLower (c : Char) : Char :=
  if decide (65 ≤ c.toNat) && decide (c.toNat ≤ 90) then Char.ofNat (c.toNat + 32) else c

/-- Drop one leading `+` or `-` sign. -/
def stripSign (s : List Char) : List Char :=
  match s with
  | [] => []
  | c :: rest => if c == '+' || c == '-' then rest else s

/-- Split at the first `e`/`E`: the mantissa and, when an exponent marker is
present, the text after it. -/
def splitMantissaExp (s : List Char) : List Char × Option (List Char) :=
  match s with
  | [] => ([], none)
  | c :: rest =>
    if c == 'e' || c == 'E' then ([], some rest)
    else
      let p := splitMantissaExp rest
      (c :: p.1, p.2)

/-- A mantissa is digits with at most one decimal point and at least one digit. -/
def mantissaOk (m : List Char) : Bool :=
  m.any isAsciiDigit && m.all isDigitOrDot && decide (m.count '.' ≤ 1)

/-- An exponent part, when present, is an optional sign then at least one digit. -/
def expOk : Option (List Char) → Bool
  | none => true
  | some e =>
    let e2 := stripSign e
    !e2.isEmpty && e2.all isAsciiDigit

/-- Model of the success condition of Rust's `str::parse::<f64>`
(`f64::from_str`, the `dec2flt` grammar): an optional sign followed by
`inf`/`infinity`/`nan` (ASCII case-insensitive) or by a decimal number with at
least one mantissa digit and, if an exponent marker is present, at least one
exponent digit.  An in-range check is not needed: the decimal grammar never
fails by overflow. -/
def parseF64Succeeds (s : List Char) : Bool :=
  let t := stripSign s
  if t.map asciiLower == "inf".toList || t.map asciiLower == "infinity".toList ||
      t.map asciiLower == "nan".toList then true
  else
    let p := splitMantissaExp t
    mantissaOk p.1 && expOk p.2

/-- A parse error (src/parser.rs, `Error`): the offending span and a message. -/
structure Error where
  «from» : Nat
  «to» : Nat
  message : String
  deriving DecidableEq, Repr

/-- Binary operators of the AST (src/parser.rs, `BinaryVariant`). -/
inductive BinaryVariant : Type
  | Fn
  | Add
  | Sub
  | Mul
  | Div
  | Eq
  deriving DecidableEq, Repr

/-- The AST (src/parser.rs, `Expr`).  The `f64` payload of `Float` is
represented by the source slice it was parsed from (no claim depends on
floating-point values, only on conversion success, which `parseF64Succeeds`
models); `Id` carries the token's text as characters. -/
inductive Expr : Type
  | Int (value : ℤ)
  | Float (text : List Char)
  | Id (name : List Char)
  | Binary (variant : BinaryVariant) (left right : Expr)
  deriving DecidableEq, Repr

/-- The mutable fields of `Parser`: the lexer cursor and the lookahead slot. -/
structure ParserState where
  pos : Nat
  current : Option Token
  deriving DecidableEq, Repr

/-- Outcome of running a parser method: `Ok` value or `Err` error together
with the updated parser state, or a Rust `panic!`/`expect`/`todo!` unwind
carrying its message. -/
inductive PResult (α : Type) : Type
  | ok : α → ParserState → PResult α
  | err : Error → ParserState → PResult α
  | panicked : String → PResult α
  deriving DecidableEq, Repr

/-- The `Debug` rendering of a token kind, as Rust's `{:?}` prints it. -/
def variantName : TokenVariant → String
  | TokenVariant.Add => "Add"
  | TokenVariant.Sub => "Sub"
  | TokenVariant.Mul => "Mul"
  | TokenVariant.Div => "Div"
  | TokenVariant.Pow => "Pow"
  | TokenVariant.Equal => "Equal"
  | TokenVariant.Int => "Int"
  | TokenVariant.Arrow => "Arrow"
  | TokenVariant.Float => "Float"
  | TokenVariant.Id => "Id"
  | TokenVariant.RParen => "RParen"
  | TokenVariant.LParen => "LParen"
  | TokenVariant.Fn => "Fn"
  | TokenVariant.Invalid => "Invalid"

namespace Parser

/-- `Parser::step`: refill the lookahead slot from the lexer. -/
def step (text : List Char) (s : ParserState) : ParserState :=
  match Lexer.make_token text s.pos with
  | some (t, next) => { pos := next, current := some t }
  | none => { pos := s.pos, current := none }

/-- `Parser::eat` (src/parser.rs): take the lookahead (refilling it), fail on
end of input with a `(0, 0)` span, fail on a kind mismatch at the token's span
(the token is already consumed), otherwise return the token. -/
def eat (text : List Char) (variant : TokenVariant) (s : ParserState) : PResult Token :=
  match s.current with
  | none =>
    PResult.err { «from» := 0, «to» := 0,
                  message := "expected " ++ variantName variant ++ " got None" } s
  | some current =>
    let s2 := step text { s with current := none }
    if current.variant == variant then
      PResult.ok current s2
    else
      PResult.err { «from» := current.«from», «to» := current.«to»,
                    message := "expected " ++ variantName variant ++ " got " ++
                      variantName current.variant } s2

/-- `Parser::parse_unary` (src/parser.rs): the body is `todo!()`, which
panics with this message on every call. -/
def parse_unary (_s : ParserState) : PResult Expr :=
  PResult.panicked "not yet implemented"

/-- The `loop` of `Parser::parse_mul_div`: while the lookahead is `*` or `/`,
consume it, parse the next unary operand and fold it into the left tree.
The fuel bounds the number of iterations; `parse_unary` panics on every call,
so no iteration ever completes and any positive fuel is faithful. -/
def mul_div_go (text : List Char) : Nat → Expr → ParserState → PResult Expr
  | 0, _, _ => PResult.panicked "loop fuel exhausted"
  | fuel + 1, left, s =>
    match s.current with
    | some tok =>
      if tok.variant == TokenVariant.Mul || tok.variant == TokenVariant.Div then
        match parse_unary (step text s) with
        | PResult.ok right s2 =>
          if tok.variant == TokenVariant.Mul then
            mul_div_go text fuel (Expr.Binary BinaryVariant.Mul left right) s2
          else
            mul_div_go text fuel (Expr.Binary BinaryVariant.Div left right) s2
        | PResult.err e s2 => PResult.err e s2
        | PResult.panicked m => PResult.panicked m
      else PResult.ok left s
    | none => PResult.ok left s

/-- `Parser::parse_mul_div`. -/
def parse_mul_div (text : List Char) (fuel : Nat) (s : ParserState) : PResult Expr :=
  match parse_unary s with
  | PResult.ok left s2 => mul_div_go text fuel left s2
  | PResult.err e s2 => PResult.err e s2
  | PResult.panicked m => PResult.panicked m

/-- The `loop` of `Parser::parse_add_sub`, analogous to `mul_div_go`. -/
def add_sub_go (text : List Char) (fuel : Nat) : Nat → Expr → ParserState → PResult Expr
  | 0, _, _ => PResult.panicked "loop fuel exhausted"
  | n + 1, left, s =>
    match s.current with
    | some tok =>
      if tok.variant == TokenVariant.Add || tok.variant == TokenVariant.Sub then
        match parse_mul_div text fuel (step text s) with
        | PResult.ok right s2 =>
          if tok.variant == TokenVariant.Add then
            add_sub_go text fuel n (Expr.Binary BinaryVariant.Add left right) s2
          else
            add_sub_go text fuel n (Expr.Binary BinaryVariant.Sub left right) s2
        | PResult.err e s2 => PResult.err e s2
        | PResult.panicked m => PResult.panicked m
      else PResult.ok left s
    | none => PResult.ok left s

/-- `Parser::parse_add_sub`. -/
def parse_add_sub (text : List Char) (fuel : Nat) (s : ParserState) : PResult Expr :=
  match parse_mul_div text fuel s with
  | PResult.ok left s2 => add_sub_go text fuel fuel left s2
  | PResult.err e s2 => PResult.err e s2
  | PResult.panicked m => PResult.panicked m

/-- `Parser::parse_eq` (src/parser.rs): an additive expression, then either
end of input (the bare expression is the result) or exactly one `=` and one
more additive expression. -/
def parse_eq (text : List Char) (fuel : Nat) (s : ParserState) : PResult Expr :=
  match parse_add_sub text fuel s with
  | PResult.ok left s1 =>
    match s1.current with
    | none => PResult.ok left s1
    | some _ =>
      match eat text TokenVariant.Equal s1 with
      | PResult.ok _ s2 =>
        match parse_add_sub text fuel s2 with
        | PResult.ok right s3 =>
          PResult.ok (Expr.Binary BinaryVariant.Eq left right) s3
        | PResult.err e s3 => PResult.err e s3
        | PResult.panicked m => PResult.panicked m
      | PResult.err e s2 => PResult.err e s2
      | PResult.panicked m => PResult.panicked m
  | PResult.err e s1 => PResult.err e s1
  | PResult.panicked m => PResult.panicked m

/-- `Parser::parse_expr`: delegates to `parse_eq`. -/
def parse_expr (text : List Char) (fuel : Nat) (s : ParserState) : PResult Expr :=
  parse_eq text fuel s

/-- Tail of the `LParen` arm of `Parser::parse_operand`: the source keeps the
inner `parse_expr` result (`Ok` or `Err`) in a local, checks the closing
token, and only then returns the held result.  Note the source compares the
closing token against `LParen`, not `RParen`. -/
def operand_close (text : List Char) (expr : Except Error Expr) (s : ParserState) :
    PResult Expr :=
  match s.current with
  | none =>
    let s2 := step text s
    PResult.err { «from» := 0, «to» := 0, message := "expected LParen got None" } s2
  | some closing =>
    if closing.variant == TokenVariant.LParen then
      let s2 := step text s
      match expr with
      | Except.ok e => PResult.ok e s2
      | Except.error er => PResult.err er s2
    else
      let s2 := step text s
      PResult.err { «from» := closing.«from», «to» := closing.«to»,
                    message := "expected LParen got " ++ variantName closing.variant } s2

/-- `Parser::parse_operand` (src/parser.rs).  An empty lookahead slot panics
(`panic!("break shit get hit")`); `Int`/`Float`/`Id` build a leaf from the
token's slice of the source text without consuming the token; a failed
numeric conversion is the `expect` panic; `LParen` and `Fn` recurse into
`parse_expr`; every other kind is an error whose token is consumed. -/
def parse_operand (text : List Char) (fuel : Nat) (s : ParserState) : PResult Expr :=
  match s.current with
  | none => PResult.panicked "break shit get hit"
  | some current =>
    match current.variant with
    | TokenVariant.Int =>
      match parseI64 (charsCC text current.«from» current.«to») with
      | some value => PResult.ok (Expr.Int value) s
      | none => PResult.panicked "should not tokenize incorrect int"
    | TokenVariant.Float =>
      if parseF64Succeeds (charsCC text current.«from» current.«to») then
        PResult.ok (Expr.Float (charsCC text current.«from» current.«to»)) s
      else PResult.panicked "should not tokenize incorrect float"
    | TokenVariant.Id =>
      PResult.ok (Expr.Id (charsCC text current.«from» current.«to»)) s
    | TokenVariant.LParen =>
      match parse_expr text fuel (step text s) with
      | PResult.ok e s2 => operand_close text (Except.ok e) s2
      | PResult.err er s2 => operand_close text (Except.error er) s2
      | PResult.panicked m => PResult.panicked m
    | TokenVariant.Fn =>
      match eat text TokenVariant.Id (step text s) with
      | PResult.ok idTok s2 =>
        match parse_expr text fuel s2 with
        | PResult.ok body s3 =>
          PResult.ok (Expr.Binary BinaryVariant.Fn
            (Expr.Id (charsCC text idTok.«from» idTok.«to»)) body) s3
        | PResult.err e s3 => PResult.err e s3
        | PResult.panicked m => PResult.panicked m
      | PResult.err e s2 => PResult.err e s2
      | PResult.panicked m => PResult.panicked m
    | _ =>
      let e : Error :=
        { «from» := current.«from», «to» := current.«to»,
          message := "expected Int | Float | Id | RParen | Fn got '" ++
            variantName current.variant ++ "'" }
      PResult.err e (step text s)

/-- `Parser::new` followed by `Parser::parse`: the lookahead slot starts out
empty (`current: None`) and `parse` calls `parse_operand` directly. -/
def parse (text : List Char) : PResult Expr :=
  parse_operand text (text.length + 1) { pos := 0, current := none }

end Parser

/-- Every token's span is well formed: `from <= to`. -/
def spansWellFormed (ts : List Token) : Bool :=
  ts.all fun t => decide (t.«from» ≤ t.«to»)

/-- Adjacent tokens in the stream are strictly separated: each later token's
span starts after the previous token's span ends. -/
def spansStrictlySeparated : List Token → Bool
  | [] => true
  | [_] => true
  | a :: b :: rest => decide (a.«to» < b.«from») && spansStrictlySeparated (b :: rest)

/-- Adjacent tokens never properly overlap: each later token's span starts no
earlier than the previous token's span end. -/
def spansSeparated : List Token → Bool
  | [] => true
  | [_] => true
  | a :: b :: rest => decide (a.«to» ≤ b.«from») && spansSeparated (b :: rest)

/-- Every `Int` or `Float` token of the stream has a source slice that
converts successfully to an `i64` or `f64` respectively (the property claimed
by the spec for all inputs). -/
def numericTokensConvert (text : List Char) : Bool :=
  (Lexer.tokenize text).all fun t =>
    match t.variant with
    | TokenVariant.Int => (parseI64 (charsCC text t.«from» t.«to»)).isSome
    | TokenVariant.Float => parseF64Succeeds (charsCC text t.«from» t.«to»)
    | _ => true

/-- The shape invariant the lexer does guarantee for numeric tokens: an `Int`
token's slice is a nonempty string of digits and converts to `i64` exactly
when its value fits; a `Float` token's slice is digits with exactly one `.`
and converts to `f64` exactly when it contains at least one digit. -/
def numericTokensShape (text : List Char) : Bool :=
  (Lexer.tokenize text).all fun t =>
    match t.variant with
    | TokenVariant.Int =>
      let s := charsCC text t.«from» t.«to»
      !s.isEmpty && s.all isAsciiDigit &&
        ((parseI64 s).isSome == decide (digitsToNat s ≤ i64MaxNat))
    | TokenVariant.Float =>
      let s := charsCC text t.«from» t.«to»
      !s.isEmpty && s.all isDigitOrDot && (s.count '.' == 1) &&
        (parseF64Succeeds s == s.any isAsciiDigit)
    | _ => true

/-- The token stream starting at cursor `p` is span-chained: every token
starts at or after `p`, has a well-formed span, and the rest of the stream is
chained from its end. -/
def chainedFrom : Nat → List Token → Prop
  | _, [] => True
  | p, t :: rest => p ≤ t.«from» ∧ t.«from» ≤ t.«to» ∧ chainedFrom t.«to» rest

namespace Lexer

/-- The conclusions of `make_number_go_spec` for a call that entered the loop at
`start`, has consumed `text[start..pos]` (`last = pos - 1`), and returned token
`t` with final cursor `p`. -/
def numberResult (text : List Char) (start last pos : Nat) (t : Token) (p : Nat) : Prop :=
  t.«from» = start ∧ last ≤ t.«to» ∧ t.«to» ≤ p ∧ pos ≤ p ∧ p ≤ text.length ∧
    (t.variant = TokenVariant.Int ∧ p = t.«to» + 1 ∧
        (charsCC text start t.«to»).all isAsciiDigit = true ∨
      t.variant = TokenVariant.Float ∧ p = t.«to» + 1 ∧
        (charsCC text start t.«to»).all isDigitOrDot = true ∧
        (charsCC text start t.«to»).count '.' = 1 ∨
      t.variant = TokenVariant.Invalid ∧ p = t.«to» ∧ text[t.«to»]? = some '.' ∧
        (charsCO text start t.«to»).all isDigitOrDot = true ∧
        (charsCO text start t.«to»).count '.' = 1)

/-- The loop invariant of `make_number_go`: the region `text[start..pos]`
consumed so far matches the kind accumulated so far. -/
def numberInv (text : List Char) (start pos : Nat) (variant : TokenVariant) : Prop :=
  variant = TokenVariant.Int ∧ (charsCO text start pos).all isAsciiDigit = true ∧
      (charsCO text start pos).count '.' = 0 ∨
    variant = TokenVariant.Float ∧ (charsCO text start pos).all isDigitOrDot = true ∧
      (charsCO text start pos).count '.' = 1

/-- The facts `make_token` guarantees about an emitted token: span bounds,
strict cursor progress, and the slice shape of numeric tokens. -/
def tokenResult (text : List Char) (pos : Nat) (t : Token) (p : Nat) : Prop :=
  pos ≤ t.«from» ∧ t.«from» ≤ t.«to» ∧ t.«to» ≤ p ∧ pos < p ∧ p ≤ text.length ∧
    (t.variant = TokenVariant.Int → charsCC text t.«from» t.«to» ≠ [] ∧
      (charsCC text t.«from» t.«to»).all isAsciiDigit = true) ∧
    (t.variant = TokenVariant.Float → charsCC text t.«from» t.«to» ≠ [] ∧
      (charsCC text t.«from» t.«to»).all isDigitOrDot = true ∧
      (charsCC text t.«from» t.«to»).count '.' = 1)

end Lexer

theorem getElem?_lt {l : List Char} {n : Nat} {c : Char} (h : l[n]? = some c) :
    n < l.length := by
  by_contra hc
  rw [List.getElem?_eq_none (by omega)] at h
  exact Option.noConfusion h

theorem charsCO_nil (text : List Char) (a : Nat) : charsCO text a a = [] := by
  simp [charsCO]

theorem charsCO_snoc {text : List Char} {a b : Nat} {c : Char} (hab : a ≤ b)
    (h : text[b]? = some c) : charsCO text a (b + 1) = charsCO text a b ++ [c] := by
  unfold charsCO
  have h1 : b + 1 - a = (b - a) + 1 := by omega
  rw [h1, List.take_succ, List.getElem?_drop]
  have h3 : a + (b - a) = b := by omega
  rw [h3, h]
  rfl

theorem charsCO_ne_nil {text : List Char} {a b : Nat} (hab : a < b) (ha : a < text.length) :
    charsCO text a b ≠ [] := by
  apply List.ne_nil_of_length_pos
  rw [charsCO, List.length_take, List.length_drop]
  omega

theorem isAsciiDigit_isDigitOrDot {c : Char} (h : isAsciiDigit c = true) :
    isDigitOrDot c = true := by
  simp [isDigitOrDot, h]

theorem isAsciiDigit_ne_dot {c : Char} (h : isAsciiDigit c = true) : (c == '.') = false := by
  cases hb : c == '.' with
  | false => rfl
  | true =>
    rw [show c = '.' from beq_iff_eq.mp hb] at h
    exact absurd h (by decide)

namespace Lexer

theorem make_number_go_break (text : List Char) (start last pos : Nat) (variant : TokenVariant)
    (_hsl : start ≤ last) (hlp : last + 1 = pos) (hlen : pos ≤ text.length)
    (hinv : numberInv text start pos variant) :
    numberResult text start last pos { «from» := start, «to» := last, variant := variant } pos := by
  refine ⟨rfl, show last ≤ last from le_refl last, show last ≤ pos by omega,
    le_refl pos, hlen, ?_⟩
  rcases hinv with ⟨hv, hall, _⟩ | ⟨hv, hall, hcount⟩
  · left
    refine ⟨hv, show pos = last + 1 by omega, ?_⟩
    show (charsCC text start last).all isAsciiDigit = true
    simp only [charsCC]
    rw [hlp]
    exact hall
  · right; left
    refine ⟨hv, show pos = last + 1 by omega, ?_, ?_⟩
    · show (charsCC text start last).all isDigitOrDot = true
      simp only [charsCC]
      rw [hlp]
      exact hall
    · show (charsCC text start last).count '.' = 1
      simp only [charsCC]
      rw [hlp]
      exact hcount

theorem make_number_go_spec (text : List Char) :
    ∀ (fuel start last pos : Nat) (variant : TokenVariant) (t : Token) (p : Nat),
      make_number_go text fuel start last pos variant = (t, p) →
      start ≤ last → last + 1 = pos → pos ≤ text.length →
      numberInv text start pos variant →
      numberResult text start last pos t p := by
  intro fuel
  induction fuel with
  | zero =>
    intro start last pos variant t p hEq hsl hlp hlen hinv
    simp only [make_number_go] at hEq
    injection hEq with h1 h2
    subst h1; subst h2
    exact make_number_go_break text start last pos variant hsl hlp hlen hinv
  | succ fuel ih =>
    intro start last pos variant t p hEq hsl hlp hlen hinv
    simp only [make_number_go] at hEq
    cases hget : text[pos]? with
    | none =>
      rw [hget] at hEq
      dsimp only at hEq
      injection hEq with h1 h2
      subst h1; subst h2
      exact make_number_go_break text start last pos variant hsl hlp hlen hinv
    | some c =>
      rw [hget] at hEq
      dsimp only at hEq
      have hposlt : pos < text.length := getElem?_lt hget
      by_cases hdot : (c == '.') = true
      · rw [if_pos hdot] at hEq
        have hcdot : c = '.' := beq_iff_eq.mp hdot
        by_cases hflo : (variant == TokenVariant.Float) = true
        · rw [if_pos hflo] at hEq
          injection hEq with h1 h2
          subst h1; subst h2
          have hv : variant = TokenVariant.Float := beq_iff_eq.mp hflo
          rcases hinv with ⟨hv2, _, _⟩ | ⟨_, hall, hcount⟩
          · rw [hv2] at hv; exact absurd hv (by decide)
          · refine ⟨rfl, show last ≤ pos by omega, show pos ≤ pos from le_refl pos,
              le_refl pos, hlen, ?_⟩
            right; right
            subst hcdot
            exact ⟨rfl, rfl, hget, hall, hcount⟩
        · rw [if_neg hflo] at hEq
          have hvInt : variant = TokenVariant.Int := by
            rcases hinv with ⟨hv2, _, _⟩ | ⟨hv2, _, _⟩
            · exact hv2
            · exact absurd (beq_iff_eq.mpr hv2) (by simpa using hflo)
          rcases hinv with ⟨_, hall, hcount⟩ | ⟨hv2, _, _⟩
          · have hres := ih start pos (pos + 1) TokenVariant.Float t p hEq (by omega) rfl
              (by omega) ?_
            · obtain ⟨r1, r2, r3, r4, r5, r6⟩ := hres
              exact ⟨r1, by omega, r3, by omega, r5, r6⟩
            · right
              refine ⟨rfl, ?_, ?_⟩ <;> rw [charsCO_snoc (show start ≤ pos by omega)
                (hcdot ▸ hget)]
              · rw [List.all_append]
                refine (Bool.and_eq_true _ _).mpr ⟨?_, by decide⟩
                exact List.all_eq_true.mpr fun x hx =>
                  isAsciiDigit_isDigitOrDot (List.all_eq_true.mp hall x hx)
              · rw [List.count_append, hcount]
                rfl
          · exact absurd (beq_iff_eq.mpr hv2) (by simpa using hflo)
      · rw [if_neg hdot] at hEq
        by_cases hdig : isAsciiDigit c = true
        · rw [if_pos hdig] at hEq
          have hcnd : (c == '.') = false := isAsciiDigit_ne_dot hdig
          have hres := ih start pos (pos + 1) variant t p hEq (by omega) rfl (by omega) ?_
          · obtain ⟨r1, r2, r3, r4, r5, r6⟩ := hres
            exact ⟨r1, by omega, r3, by omega, r5, r6⟩
          · rcases hinv with ⟨hv, hall, hcount⟩ | ⟨hv, hall, hcount⟩
            · left
              refine ⟨hv, ?_, ?_⟩ <;> rw [charsCO_snoc (show start ≤ pos by omega) hget]
              · rw [List.all_append]
                exact (Bool.and_eq_true _ _).mpr ⟨hall, by simp [hdig]⟩
              · have hne : c ≠ '.' := by
                  intro hcd
                  rw [hcd] at hcnd
                  simp at hcnd
                rw [List.count_append, hcount, List.count_singleton']
                simp [hne]
            · right
              refine ⟨hv, ?_, ?_⟩ <;> rw [charsCO_snoc (show start ≤ pos by omega) hget]
              · rw [List.all_append]
                exact (Bool.and_eq_true _ _).mpr ⟨hall,
                  by simp [isAsciiDigit_isDigitOrDot hdig]⟩
              · have hne : c ≠ '.' := by
                  intro hcd
                  rw [hcd] at hcnd
                  simp at hcnd
                rw [List.count_append, hcount, List.count_singleton']
                simp [hne]
        · rw [if_neg hdig] at hEq
          injection hEq with h1 h2
          subst h1; subst h2
          exact make_number_go_break text start last pos variant hsl hlp hlen hinv

end Lexer

namespace Lexer

theorem make_number_spec (text : List Char) {pos : Nat} {c : Char} {t : Token} {p : Nat}
    (hget : text[pos]? = some c) (hc : isDigitOrDot c = true)
    (hEq : make_number text pos = (t, p)) :
    numberResult text pos pos (pos + 1) t p := by
  have hlt : pos < text.length := getElem?_lt hget
  obtain ⟨f, hf⟩ : ∃ f, text.length + 1 - pos = f + 1 := ⟨text.length - pos, by omega⟩
  unfold make_number at hEq
  rw [hf] at hEq
  simp only [make_number_go] at hEq
  rw [hget] at hEq
  dsimp only at hEq
  by_cases hdot : (c == '.') = true
  · rw [if_pos hdot, if_neg (by decide)] at hEq
    have hcdot : c = '.' := beq_iff_eq.mp hdot
    refine make_number_go_spec text f pos pos (pos + 1) TokenVariant.Float t p hEq
      (le_refl pos) rfl (by omega) ?_
    right
    refine ⟨rfl, ?_, ?_⟩ <;>
      rw [charsCO_snoc (le_refl pos) (hcdot ▸ hget), charsCO_nil] <;> decide
  · have hdig : isAsciiDigit c = true := by
      rcases Bool.or_eq_true _ _ |>.mp hc with h | h
      · exact h
      · exact absurd h hdot
    rw [if_neg hdot, if_pos hdig] at hEq
    refine make_number_go_spec text f pos pos (pos + 1) TokenVariant.Int t p hEq
      (le_refl pos) rfl (by omega) ?_
    left
    have hne : c ≠ '.' := fun hcd => hdot (beq_iff_eq.mpr hcd)
    refine ⟨rfl, ?_, ?_⟩ <;> rw [charsCO_snoc (le_refl pos) hget, charsCO_nil]
    · simp [hdig]
    · simp [List.count_singleton', hne]

theorem make_identifier_go_spec (text : List Char) :
    ∀ (fuel start last pos : Nat) (t : Token) (p : Nat),
      make_identifier_go text fuel start last pos = (t, p) →
      start ≤ last → last + 1 = pos → pos ≤ text.length →
      t.«from» = start ∧ last ≤ t.«to» ∧ p = t.«to» + 1 ∧ pos ≤ p ∧ p ≤ text.length ∧
        (t.variant = TokenVariant.Id ∨ t.variant = TokenVariant.Fn) := by
  intro fuel
  induction fuel with
  | zero =>
    intro start last pos t p hEq hsl hlp hlen
    simp only [make_identifier_go] at hEq
    injection hEq with h1 h2
    subst h1; subst h2
    refine ⟨rfl, le_refl last, show pos = last + 1 by omega, le_refl pos, hlen, ?_⟩
    by_cases hfn : (charsCC text start last == ['f', 'n']) = true
    · right
      show (if charsCC text start last == ['f', 'n'] then TokenVariant.Fn
            else TokenVariant.Id) = TokenVariant.Fn
      rw [if_pos hfn]
    · left
      show (if charsCC text start last == ['f', 'n'] then TokenVariant.Fn
            else TokenVariant.Id) = TokenVariant.Id
      rw [if_neg hfn]
  | succ fuel ih =>
    intro start last pos t p hEq hsl hlp hlen
    simp only [make_identifier_go] at hEq
    cases hget : text[pos]? with
    | none =>
      rw [hget] at hEq
      dsimp only at hEq
      injection hEq with h1 h2
      subst h1; subst h2
      refine ⟨rfl, le_refl last, show pos = last + 1 by omega, le_refl pos, hlen, ?_⟩
      by_cases hfn : (charsCC text start last == ['f', 'n']) = true
      · right
        show (if charsCC text start last == ['f', 'n'] then TokenVariant.Fn
              else TokenVariant.Id) = TokenVariant.Fn
        rw [if_pos hfn]
      · left
        show (if charsCC text start last == ['f', 'n'] then TokenVariant.Fn
              else TokenVariant.Id) = TokenVariant.Id
        rw [if_neg hfn]
    | some c =>
      rw [hget] at hEq
      dsimp only at hEq
      have hposlt : pos < text.length := getElem?_lt hget
      by_cases hid : isIdentChar c = true
      · rw [if_pos hid] at hEq
        obtain ⟨r1, r2, r3, r4, r5, r6⟩ := ih start pos (pos + 1) t p hEq (by omega) rfl
          (by omega)
        exact ⟨r1, by omega, r3, by omega, r5, r6⟩
      · rw [if_neg hid] at hEq
        injection hEq with h1 h2
        subst h1; subst h2
        refine ⟨rfl, le_refl last, show pos = last + 1 by omega, le_refl pos, hlen, ?_⟩
        by_cases hfn : (charsCC text start last == ['f', 'n']) = true
        · right
          show (if charsCC text start last == ['f', 'n'] then TokenVariant.Fn
                else TokenVariant.Id) = TokenVariant.Fn
          rw [if_pos hfn]
        · left
          show (if charsCC text start last == ['f', 'n'] then TokenVariant.Fn
                else TokenVariant.Id) = TokenVariant.Id
          rw [if_neg hfn]

theorem make_identifier_spec (text : List Char) {pos : Nat} {c : Char} {t : Token} {p : Nat}
    (hget : text[pos]? = some c) (hc : isIdentChar c = true)
    (hEq : make_identifier text pos = (t, p)) :
    t.«from» = pos ∧ pos ≤ t.«to» ∧ p = t.«to» + 1 ∧ pos + 1 ≤ p ∧ p ≤ text.length ∧
      (t.variant = TokenVariant.Id ∨ t.variant = TokenVariant.Fn) := by
  have hlt : pos < text.length := getElem?_lt hget
  obtain ⟨f, hf⟩ : ∃ f, text.length + 1 - pos = f + 1 := ⟨text.length - pos, by omega⟩
  unfold make_identifier at hEq
  rw [hf] at hEq
  simp only [make_identifier_go] at hEq
  rw [hget] at hEq
  dsimp only at hEq
  rw [if_pos hc] at hEq
  obtain ⟨r1, r2, r3, r4, r5, r6⟩ := make_identifier_go_spec text f pos pos (pos + 1) t p hEq
    (le_refl pos) rfl (by omega)
  exact ⟨r1, r2, r3, r4, r5, r6⟩

end Lexer

namespace Lexer

theorem make_single_result (text : List Char) {pos : Nat} {v : TokenVariant} {t : Token}
    {p : Nat} (hlt : pos < text.length) (h : make_single pos v = (t, p))
    (hv1 : v ≠ TokenVariant.Int) (hv2 : v ≠ TokenVariant.Float) :
    tokenResult text pos t p := by
  simp only [make_single] at h
  injection h with h1 h2
  subst h1; subst h2
  refine ⟨le_refl pos, show pos ≤ pos from le_refl pos, show pos ≤ pos + 1 by omega,
    show pos < pos + 1 by omega, by omega, ?_, ?_⟩
  · intro hv; exact absurd hv hv1
  · intro hv; exact absurd hv hv2

theorem make_token_go_spec (text : List Char) :
    ∀ (fuel pos : Nat) (t : Token) (p : Nat),
      make_token_go text fuel pos = some (t, p) → tokenResult text pos t p := by
  intro fuel
  induction fuel with
  | zero =>
    intro pos t p hEq
    simp only [make_token_go] at hEq
    exact Option.noConfusion hEq
  | succ fuel ih =>
    intro pos t p hEq
    simp only [make_token_go] at hEq
    cases hget : text[pos]? with
    | none =>
      rw [hget] at hEq
      exact Option.noConfusion hEq
    | some c =>
      rw [hget] at hEq
      dsimp only at hEq
      have hposlt : pos < text.length := getElem?_lt hget
      by_cases h1 : (isAsciiDigit c || c == '.') = true
      · rw [if_pos h1] at hEq
        injection hEq with h
        obtain ⟨n1, n2, n3, n4, n5, n6⟩ := make_number_spec text hget h1 h
        refine ⟨by omega, by omega, n3, by omega, n5, ?_, ?_⟩
        · intro hv
          rcases n6 with ⟨_, _, hall⟩ | ⟨hv2, _, _⟩ | ⟨hv2, _, _⟩
          · refine ⟨?_, ?_⟩
            · rw [n1]
              exact charsCO_ne_nil (by omega) (by omega)
            · rw [n1]; exact hall
          · rw [hv] at hv2; exact absurd hv2 (by decide)
          · rw [hv] at hv2; exact absurd hv2 (by decide)
        · intro hv
          rcases n6 with ⟨hv2, _, _⟩ | ⟨_, _, hall, hcount⟩ | ⟨hv2, _, _⟩
          · rw [hv] at hv2; exact absurd hv2 (by decide)
          · refine ⟨?_, ?_, ?_⟩
            · rw [n1]
              exact charsCO_ne_nil (by omega) (by omega)
            · rw [n1]; exact hall
            · rw [n1]; exact hcount
          · rw [hv] at hv2; exact absurd hv2 (by decide)
      · rw [if_neg h1] at hEq
        by_cases h2 : isIdentStart c = true
        · rw [if_pos h2] at hEq
          injection hEq with h
          have hic : isIdentChar c = true := by simp [isIdentChar, h2]
          obtain ⟨r1, r2, r3, r4, r5, r6⟩ := make_identifier_spec text hget hic h
          refine ⟨by omega, by omega, by omega, by omega, r5, ?_, ?_⟩
          · intro hv
            rcases r6 with hv2 | hv2 <;> rw [hv] at hv2 <;> exact absurd hv2 (by decide)
          · intro hv
            rcases r6 with hv2 | hv2 <;> rw [hv] at hv2 <;> exact absurd hv2 (by decide)
        · rw [if_neg h2] at hEq
          by_cases h3 : (c == '+') = true
          · rw [if_pos h3] at hEq
            injection hEq with h
            exact make_single_result text hposlt h (by decide) (by decide)
          · rw [if_neg h3] at hEq
            by_cases h4 : (c == '-') = true
            · rw [if_pos h4] at hEq
              injection hEq with h
              exact make_single_result text hposlt h (by decide) (by decide)
            · rw [if_neg h4] at hEq
              by_cases h5 : (c == '^') = true
              · rw [if_pos h5] at hEq
                injection hEq with h
                exact make_single_result text hposlt h (by decide) (by decide)
              · rw [if_neg h5] at hEq
                by_cases h6 : (c == '*') = true
                · rw [if_pos h6] at hEq
                  injection hEq with h
                  exact make_single_result text hposlt h (by decide) (by decide)
                · rw [if_neg h6] at hEq
                  by_cases h7 : (c == '=') = true
                  · rw [if_pos h7] at hEq
                    injection hEq with h
                    simp only [make_double] at h
                    cases hg2 : text[pos + 1]? with
                    | none =>
                      rw [hg2] at h
                      dsimp only at h
                      injection h with hh1 hh2
                      subst hh1; subst hh2
                      refine ⟨le_refl pos, show pos ≤ pos from le_refl pos,
                        show pos ≤ pos + 1 by omega, show pos < pos + 1 by omega, by omega,
                        ?_, ?_⟩ <;> intro hv <;> simp at hv
                    | some v =>
                      rw [hg2] at h
                      dsimp only at h
                      have hlt2 : pos + 1 < text.length := getElem?_lt hg2
                      by_cases hv : (v == '>') = true
                      · rw [if_pos hv] at h
                        injection h with hh1 hh2
                        subst hh1; subst hh2
                        refine ⟨le_refl pos, show pos ≤ pos + 1 by omega,
                          show pos + 1 ≤ pos + 2 by omega, show pos < pos + 2 by omega,
                          by omega, ?_, ?_⟩ <;> intro hvv <;> simp at hvv
                      · rw [if_neg hv] at h
                        injection h with hh1 hh2
                        subst hh1; subst hh2
                        refine ⟨le_refl pos, show pos ≤ pos from le_refl pos,
                          show pos ≤ pos + 1 by omega, show pos < pos + 1 by omega, by omega,
                          ?_, ?_⟩ <;> intro hvv <;> simp at hvv
                  · rw [if_neg h7] at hEq
                    by_cases h8 : (c == '/') = true
                    · rw [if_pos h8] at hEq
                      injection hEq with h
                      exact make_single_result text hposlt h (by decide) (by decide)
                    · rw [if_neg h8] at hEq
                      by_cases h9 : (c == '(') = true
                      · rw [if_pos h9] at hEq
                        injection hEq with h
                        exact make_single_result text hposlt h (by decide) (by decide)
                      · rw [if_neg h9] at hEq
                        by_cases h10 : (c == ')') = true
                        · rw [if_pos h10] at hEq
                          injection hEq with h
                          exact make_single_result text hposlt h (by decide) (by decide)
                        · rw [if_neg h10] at hEq
                          by_cases h11 : rustIsWhitespace c = true
                          · rw [if_pos h11] at hEq
                            obtain ⟨r1, r2, r3, r4, r5, r6, r7⟩ := ih (pos + 1) t p hEq
                            exact ⟨by omega, r2, r3, by omega, r5, r6, r7⟩
                          · rw [if_neg h11] at hEq
                            injection hEq with h
                            exact make_single_result text hposlt h (by decide) (by decide)

theorem make_token_spec (text : List Char) {pos : Nat} {t : Token} {p : Nat}
    (hEq : make_token text pos = some (t, p)) : tokenResult text pos t p :=
  make_token_go_spec text (text.length + 1 - pos) pos t p hEq

end Lexer

theorem chainedFrom_mono {ts : List Token} {p q : Nat} (hqp : q ≤ p)
    (h : chainedFrom p ts) : chainedFrom q ts := by
  cases ts with
  | nil => trivial
  | cons t rest =>
    obtain ⟨h1, h2, h3⟩ := h
    exact ⟨by omega, h2, h3⟩

namespace Lexer

theorem tokenize_go_chained (text : List Char) :
    ∀ (fuel pos : Nat), chainedFrom pos (tokenize_go text fuel pos) := by
  intro fuel
  induction fuel with
  | zero =>
    intro pos
    simp only [tokenize_go]
    trivial
  | succ fuel ih =>
    intro pos
    simp only [tokenize_go]
    cases hmk : make_token text pos with
    | none => trivial
    | some tp =>
      obtain ⟨t, p⟩ := tp
      obtain ⟨r1, r2, r3, r4, r5, _, _⟩ := make_token_spec text hmk
      exact ⟨r1, r2, chainedFrom_mono (by omega) (ih p)⟩

theorem tokenize_go_length (text : List Char) :
    ∀ (fuel pos : Nat), (tokenize_go text fuel pos).length ≤ text.length - pos := by
  intro fuel
  induction fuel with
  | zero =>
    intro pos
    simp [tokenize_go]
  | succ fuel ih =>
    intro pos
    simp only [tokenize_go]
    cases hmk : make_token text pos with
    | none => simp
    | some tp =>
      obtain ⟨t, p⟩ := tp
      obtain ⟨r1, r2, r3, r4, r5, _, _⟩ := make_token_spec text hmk
      have := ih p
      simp only [List.length_cons]
      omega

/-- Fuel adequacy: any two fuel amounts strictly above the number of
characters left give the same token stream, so `tokenize`'s choice of
`text.length + 1` computes the full stream of the source's unbounded
iterator. -/
theorem tokenize_go_fuel_congr (text : List Char) :
    ∀ (f g pos : Nat), text.length - pos < f → text.length - pos < g →
      tokenize_go text f pos = tokenize_go text g pos := by
  intro f
  induction f with
  | zero =>
    intro g pos hf hg
    omega
  | succ f ih =>
    intro g pos hf hg
    cases g with
    | zero => omega
    | succ g =>
      simp only [tokenize_go]
      cases hmk : make_token text pos with
      | none => rfl
      | some tp =>
        obtain ⟨t, p⟩ := tp
        obtain ⟨r1, r2, r3, r4, r5, _, _⟩ := make_token_spec text hmk
        dsimp only
        rw [ih g p (by omega) (by omega)]

end Lexer

theorem chainedFrom_spans {ts : List Token} :
    ∀ (p : Nat), chainedFrom p ts →
      spansWellFormed ts = true ∧ spansSeparated ts = true := by
  induction ts with
  | nil =>
    intro p _
    exact ⟨rfl, rfl⟩
  | cons t rest ih =>
    intro p h
    obtain ⟨h1, h2, h3⟩ := h
    obtain ⟨hwf, hsep⟩ := ih t.«to» h3
    constructor
    · simp only [spansWellFormed, List.all_cons]
      refine (Bool.and_eq_true _ _).mpr ⟨by simpa using h2, ?_⟩
      simpa [spansWellFormed] using hwf
    · cases rest with
      | nil => rfl
      | cons b rest2 =>
        obtain ⟨hb1, _, _⟩ := h3
        simp only [spansSeparated]
        exact (Bool.and_eq_true _ _).mpr ⟨by simpa using hb1, hsep⟩

theorem parseI64_digits {s : List Char} (hne : s ≠ []) (hall : s.all isAsciiDigit = true) :
    (parseI64 s).isSome = decide (digitsToNat s ≤ i64MaxNat) := by
  cases s with
  | nil => exact absurd rfl hne
  | cons c rest =>
    have hc : isAsciiDigit c = true := List.all_eq_true.mp hall c (by simp)
    have hminus : (c == '-') = false := by
      cases hb : c == '-' with
      | false => rfl
      | true =>
        rw [show c = '-' from beq_iff_eq.mp hb] at hc
        exact absurd hc (by decide)
    have hplus : (c == '+') = false := by
      cases hb : c == '+' with
      | false => rfl
      | true =>
        rw [show c = '+' from beq_iff_eq.mp hb] at hc
        exact absurd hc (by decide)
    simp only [parseI64, hminus, hplus, Bool.false_eq_true, if_false]
    have hcond : (!(c :: rest).isEmpty && (c :: rest).all isAsciiDigit) = true := by
      simp [hall]
    rw [if_pos hcond]
    by_cases hle : digitsToNat (c :: rest) ≤ i64MaxNat
    · rw [if_pos hle]
      simp [hle]
    · rw [if_neg hle]
      simp [hle]

theorem isDigitOrDot_toNat_le {c : Char} (h : isDigitOrDot c = true) : c.toNat ≤ 57 := by
  rcases (Bool.or_eq_true _ _).mp h with hd | hdot
  · exact of_decide_eq_true ((Bool.and_eq_true _ _).mp hd).2
  · rw [beq_iff_eq.mp hdot]
    decide

theorem isDigitOrDot_ne {c : Char} (h : isDigitOrDot c = true) (d : Char)
    (hd : 57 < d.toNat) : (c == d) = false := by
  cases hb : c == d with
  | false => rfl
  | true =>
    have h1 := isDigitOrDot_toNat_le h
    rw [beq_iff_eq.mp hb] at h1
    omega

theorem asciiLower_digitOrDot {c : Char} (h : isDigitOrDot c = true) : asciiLower c = c := by
  have h1 := isDigitOrDot_toNat_le h
  unfold asciiLower
  rw [if_neg]
  simp only [Bool.and_eq_true, decide_eq_true_eq, not_and]
  omega

theorem stripSign_digitOrDot {s : List Char} (hall : s.all isDigitOrDot = true) :
    stripSign s = s := by
  cases s with
  | nil => rfl
  | cons c rest =>
    have hc : isDigitOrDot c = true := List.all_eq_true.mp hall c (by simp)
    have h1 : (c == '+') = false := by
      cases hb : c == '+' with
      | false => rfl
      | true =>
        rw [show c = '+' from beq_iff_eq.mp hb] at hc
        exact absurd hc (by decide)
    have h2 : (c == '-') = false := by
      cases hb : c == '-' with
      | false => rfl
      | true =>
        rw [show c = '-' from beq_iff_eq.mp hb] at hc
        exact absurd hc (by decide)
    simp [stripSign, h1, h2]

theorem map_asciiLower_digitOrDot {s : List Char} (hall : s.all isDigitOrDot = true) :
    s.map asciiLower = s := by
  rw [List.map_congr_left fun x hx => asciiLower_digitOrDot (List.all_eq_true.mp hall x hx)]
  exact List.map_id s

theorem splitMantissaExp_digitOrDot {s : List Char} (hall : s.all isDigitOrDot = true) :
    splitMantissaExp s = (s, none) := by
  induction s with
  | nil => rfl
  | cons c rest ih =>
    have hc : isDigitOrDot c = true := List.all_eq_true.mp hall c (by simp)
    have he : (c == 'e') = false := isDigitOrDot_ne hc 'e' (by decide)
    have hE : (c == 'E') = false := isDigitOrDot_ne hc 'E' (by decide)
    have htail : rest.all isDigitOrDot = true := by
      rw [List.all_cons] at hall
      exact (Bool.and_eq_true _ _).mp hall |>.2
    simp [splitMantissaExp, he, hE, ih htail]

theorem parseF64_digitsDot {s : List Char} (_hne : s ≠ []) (hall : s.all isDigitOrDot = true)
    (hcount : s.count '.' = 1) : parseF64Succeeds s = s.any isAsciiDigit := by
  unfold parseF64Succeeds
  rw [stripSign_digitOrDot hall]
  simp only [map_asciiLower_digitOrDot hall]
  have hinf : (s == ("inf".toList : List Char)) = false := by
    cases hb : s == ("inf".toList : List Char) with
    | false => rfl
    | true =>
      rw [show s = "inf".toList from beq_iff_eq.mp hb] at hall
      exact absurd hall (by decide)
  have hinfy : (s == ("infinity".toList : List Char)) = false := by
    cases hb : s == ("infinity".toList : List Char) with
    | false => rfl
    | true =>
      rw [show s = "infinity".toList from beq_iff_eq.mp hb] at hall
      exact absurd hall (by decide)
  have hnan : (s == ("nan".toList : List Char)) = false := by
    cases hb : s == ("nan".toList : List Char) with
    | false => rfl
    | true =>
      rw [show s = "nan".toList from beq_iff_eq.mp hb] at hall
      exact absurd hall (by decide)
  rw [hinf, hinfy, hnan]
  simp only [Bool.or_false, Bool.false_eq_true, if_false]
  rw [splitMantissaExp_digitOrDot hall]
  simp only [mantissaOk, expOk, Bool.and_true]
  rw [hall, hcount]
  simp

namespace Lexer

theorem tokenize_go_mem_shape (text : List Char) :
    ∀ (fuel pos : Nat) (t : Token), t ∈ tokenize_go text fuel pos →
      (t.variant = TokenVariant.Int → charsCC text t.«from» t.«to» ≠ [] ∧
        (charsCC text t.«from» t.«to»).all isAsciiDigit = true) ∧
      (t.variant = TokenVariant.Float → charsCC text t.«from» t.«to» ≠ [] ∧
        (charsCC text t.«from» t.«to»).all isDigitOrDot = true ∧
        (charsCC text t.«from» t.«to»).count '.' = 1) := by
  intro fuel
  induction fuel with
  | zero =>
    intro pos t ht
    simp [tokenize_go] at ht
  | succ fuel ih =>
    intro pos t ht
    simp only [tokenize_go] at ht
    cases hmk : make_token text pos with
    | none =>
      rw [hmk] at ht
      simp at ht
    | some tp =>
      obtain ⟨t0, p⟩ := tp
      rw [hmk] at ht
      dsimp only at ht
      rcases List.mem_cons.mp ht with rfl | htail
      · obtain ⟨_, _, _, _, _, h6, h7⟩ := make_token_spec text hmk
        exact ⟨h6, h7⟩
      · exact ih p t htail

end Lexer

theorem numericTokensShape_true : ∀ (text : List Char), numericTokensShape text = true := by
  intro text
  unfold numericTokensShape
  rw [List.all_eq_true]
  intro t ht
  obtain ⟨hInt, hFloat⟩ := Lexer.tokenize_go_mem_shape text (text.length + 1) 0 t ht
  cases hv : t.variant with
  | Int =>
    obtain ⟨hne, hall⟩ := hInt hv
    have h1 : (charsCC text t.«from» t.«to»).isEmpty = false := by
      cases hcc : charsCC text t.«from» t.«to» with
      | nil => exact absurd hcc hne
      | cons a l => rfl
    dsimp only
    rw [h1, hall, parseI64_digits hne hall]
    simp
  | Float =>
    obtain ⟨hne, hall, hcount⟩ := hFloat hv
    have h1 : (charsCC text t.«from» t.«to»).isEmpty = false := by
      cases hcc : charsCC text t.«from» t.«to» with
      | nil => exact absurd hcc hne
      | cons a l => rfl
    dsimp only
    rw [h1, hall, hcount, parseF64_digitsDot hne hall hcount]
    simp
  | Add => rfl
  | Sub => rfl
  | Mul => rfl
  | Div => rfl
  | Pow => rfl
  | Equal => rfl
  | Arrow => rfl
  | Id => rfl
  | RParen => rfl
  | LParen => rfl
  | Fn => rfl
  | Invalid => rfl

/-- Claim C3: tokenizing the spec's example yields exactly the listed tokens. -/
theorem tokenize_spec_example :
    Lexer.tokenize ("ABC_1+-*/^()==>123 123.4fn".toList) =
      [{ «from» := 0, «to» := 4, variant := TokenVariant.Id },
       { «from» := 5, «to» := 5, variant := TokenVariant.Add },
       { «from» := 6, «to» := 6, variant := TokenVariant.Sub },
       { «from» := 7, «to» := 7, variant := TokenVariant.Mul },
       { «from» := 8, «to» := 8, variant := TokenVariant.Div },
       { «from» := 9, «to» := 9, variant := TokenVariant.Pow },
       { «from» := 10, «to» := 10, variant := TokenVariant.LParen },
       { «from» := 11, «to» := 11, variant := TokenVariant.RParen },
       { «from» := 12, «to» := 12, variant := TokenVariant.Equal },
       { «from» := 13, «to» := 14, variant := TokenVariant.Arrow },
       { «from» := 15, «to» := 17, variant := TokenVariant.Int },
       { «from» := 19, «to» := 23, variant := TokenVariant.Float },
       { «from» := 24, «to» := 25, variant := TokenVariant.Fn }] := by
  decide

/-- Claim C4 counterexample: on the input `..` the lexer emits an `Invalid`
token ending at offset 1 and then a `Float` token starting at offset 1, so the
spans are not strictly separated. -/
theorem tokenize_adjacent_spans_touch :
    Lexer.tokenize ("..".toList) =
      [{ «from» := 0, «to» := 1, variant := TokenVariant.Invalid },
       { «from» := 1, «to» := 1, variant := TokenVariant.Float }] ∧
    spansStrictlySeparated (Lexer.tokenize ("..".toList)) = false := by
  exact ⟨by decide, by decide⟩

/-- Claim C4 (amended): for every input, every token has `from <= to` and
successive spans never properly overlap: each later token starts at or after
the previous token's end (equality occurs exactly after a malformed-number
`Invalid` token, whose terminating `.` the cursor does not pass). -/
theorem tokenize_spans_ordered (text : List Char) :
    spansWellFormed (Lexer.tokenize text) = true ∧
      spansSeparated (Lexer.tokenize text) = true :=
  chainedFrom_spans 0 (Lexer.tokenize_go_chained text (text.length + 1) 0)

/-- Claim C5 counterexample: the lexer tokenizes nineteen nines as a single
`Int` token whose slice does not convert to an `i64` (it exceeds `i64::MAX`),
so the claimed conversion property fails on this input. -/
theorem int_token_overflow_unconvertible :
    Lexer.tokenize ("9999999999999999999".toList) =
      [{ «from» := 0, «to» := 18, variant := TokenVariant.Int }] ∧
    parseI64 (charsCC ("9999999999999999999".toList) 0 18) = none ∧
    numericTokensConvert ("9999999999999999999".toList) = false := by
  exact ⟨by decide, by decide, by decide⟩

/-- Claim C5 (amended): every `Int` token's slice is a nonempty digit string
converting to `i64` exactly when its value is at most `i64::MAX`, and every
`Float` token's slice is digits with exactly one `.` converting to `f64`
exactly when it contains a digit; conversion failure (overflow, or a bare `.`)
is possible, so the parser's failure branch is reachable. -/
theorem numeric_token_shape_holds (text : List Char) : numericTokensShape text = true :=
  numericTokensShape_true text

/-- Claim C10: the lexer's next-token operation always terminates with a token
or end of input, never an error; a returned token strictly advances the cursor
within bounds, and running the lexer to exhaustion yields at most one token
per input character. -/
theorem lexer_next_total_progress (text : List Char) (pos : Nat) :
    (Lexer.make_token text pos = none ∨
      ∃ (t : Token) (p : Nat), Lexer.make_token text pos = some (t, p) ∧ pos < p ∧
        p ≤ text.length) ∧
    (Lexer.tokenize text).length ≤ text.length := by
  constructor
  · cases hmk : Lexer.make_token text pos with
    | none => exact Or.inl rfl
    | some tp =>
      obtain ⟨t, p⟩ := tp
      obtain ⟨_, _, _, h4, h5, _, _⟩ := Lexer.make_token_spec text hmk
      exact Or.inr ⟨t, p, rfl, h4, h5⟩
  · have h := Lexer.tokenize_go_length text (text.length + 1) 0
    show (Lexer.tokenize_go text (text.length + 1) 0).length ≤ text.length
    omega

/-- Claim C9: whenever `make_number` (entered on a digit or a dot, as the
lexer does) returns an `Invalid` token, the token starts at the literal's
start, ends exactly at a second `.` (one `.` lies strictly inside the span
before it), and the cursor is left on that `.` rather than past it. -/
theorem make_number_second_dot_invalid (text : List Char) (pos : Nat) (c : Char) (t : Token)
    (p : Nat) (hget : text[pos]? = some c) (hc : isDigitOrDot c = true)
    (hEq : Lexer.make_number text pos = (t, p)) (hv : t.variant = TokenVariant.Invalid) :
    t.«from» = pos ∧ text[t.«to»]? = some '.' ∧ (charsCO text pos t.«to»).count '.' = 1 ∧
      (charsCO text pos t.«to»).all isDigitOrDot = true ∧ p = t.«to» := by
  obtain ⟨n1, n2, n3, n4, n5, n6⟩ := Lexer.make_number_spec text hget hc hEq
  rcases n6 with ⟨hv2, _, _⟩ | ⟨hv2, _, _⟩ | ⟨_, hp, hdot, hall, hcount⟩
  · rw [hv] at hv2; exact absurd hv2 (by decide)
  · rw [hv] at hv2; exact absurd hv2 (by decide)
  · exact ⟨n1, hdot, hcount, hall, hp⟩

/-- Witness for claim C9 at the concrete input `1.2.`: scanning from offset 0
ends as an `Invalid` token spanning offsets 0 to 3, offset 3 holds the second
`.`, exactly one `.` lies in offsets 0 to 2, and the cursor stays at 3. -/
theorem make_number_second_dot_invalid_witness :
    (Token.mk 0 3 TokenVariant.Invalid).«from» = 0 ∧
    ("1.2.".toList)[(Token.mk 0 3 TokenVariant.Invalid).«to»]? = some '.' ∧
    (charsCO ("1.2.".toList) 0 (Token.mk 0 3 TokenVariant.Invalid).«to»).count '.' = 1 ∧
    (charsCO ("1.2.".toList) 0 (Token.mk 0 3 TokenVariant.Invalid).«to»).all isDigitOrDot
      = true ∧
    (3 : Nat) = (Token.mk 0 3 TokenVariant.Invalid).«to» :=
  make_number_second_dot_invalid ("1.2.".toList) 0 '1' (Token.mk 0 3 TokenVariant.Invalid) 3
    (by decide) (by decide) (by decide) rfl

/-- Claim C1 is violated by the code: `Parser::new` leaves the lookahead slot
empty and `parse` calls `parse_operand` directly, so the lookahead-empty
branch panics on every input, here shown on the input `1`. -/
theorem parse_fresh_panics :
    Parser.parse ("1".toList) = PResult.panicked "break shit get hit" := rfl

/-- Claim C2 is violated by the code: parsing `1+2*3` panics immediately
instead of returning the precedence-ordered tree (and `parse` never calls the
precedence chain anyway, while `parse_unary` is `todo!()`). -/
theorem parse_precedence_input_panics :
    Parser.parse ("1+2*3".toList) = PResult.panicked "break shit get hit" := rfl

/-- Claim C7 is violated by the code: parsing `1=2=3` panics on the empty
lookahead instead of returning the expected-token-mismatch error at the
second `=`. -/
theorem chained_equality_input_panics :
    Parser.parse ("1=2=3".toList) = PResult.panicked "break shit get hit" := rfl

/-- Claim C6 is violated by the code: on `(1)`, even with the lookahead primed
to the `LParen` token as the spec's control flow prescribes, the operand rule
recurses into `parse_expr`, which reaches `parse_unary`'s `todo!()` panic, so
the closing-delimiter check is never performed; and that check itself
compares the closing token against `LParen`, not `RParen`: handed an `RParen`
closer it errors, handed an `LParen` closer it accepts. -/
theorem paren_operand_hits_todo_panic :
    Parser.step ("(1)".toList) { pos := 0, current := none } =
      { pos := 1, current := some (Token.mk 0 0 TokenVariant.LParen) } ∧
    Parser.parse_operand ("(1)".toList) 4
        { pos := 1, current := some (Token.mk 0 0 TokenVariant.LParen) } =
      PResult.panicked "not yet implemented" ∧
    Parser.operand_close ("(1)".toList) (Except.ok (Expr.Int 1))
        { pos := 3, current := some (Token.mk 2 2 TokenVariant.RParen) } =
      PResult.err { «from» := 2, «to» := 2, message := "expected LParen got RParen" }
        { pos := 3, current := none } ∧
    Parser.operand_close ("((".toList) (Except.ok (Expr.Int 1))
        { pos := 2, current := some (Token.mk 1 1 TokenVariant.LParen) } =
      PResult.ok (Expr.Int 1) { pos := 2, current := none } := ⟨rfl, rfl, rfl, rfl⟩

/-- Claim C8 is violated by the code: on `1+2` with the lookahead primed to
the `Int` token, the operand rule returns the `Int 1` leaf with the parser
state unchanged: the lookahead still holds the `Int` token just converted,
not the following `Add` token. -/
theorem operand_leaf_leaves_lookahead :
    Parser.step ("1+2".toList) { pos := 0, current := none } =
      { pos := 1, current := some (Token.mk 0 0 TokenVariant.Int) } ∧
    Parser.parse_operand ("1+2".toList) 4
        { pos := 1, current := some (Token.mk 0 0 TokenVariant.Int) } =
      PResult.ok (Expr.Int 1)
        { pos := 1, current := some (Token.mk 0 0 TokenVariant.Int) } := ⟨rfl, rfl⟩
